import Mathlib

/-!
# Verification of a two-layer fully-connected neural network

This development is a shallow embedding, over the real numbers, of the
two-layer neural network implemented in `Neural_Networks/TwoLayerNN.py`:
a model with parameters `W1 : D×H`, `b1 : H`, `W2 : H×C`, `b2 : C`,
a softmax cross-entropy loss with L2 regularization, stochastic mini-batch
gradient descent with classical momentum, and an argmax predictor.

Arrays are modelled as functions out of `Fin`; the library's `randn` and
`np.random.choice` calls are modelled as explicit oracle arguments
(a weight-initialisation table, and a per-iteration sampling function),
so every run of the code corresponds to some choice of oracles.
Floating-point arithmetic is modelled as exact real arithmetic.
-/

open Finset

namespace TwoLayerNN

/-- Source function `ReLU`: `ReLU(x) = max(0, x)`, the elementwise nonlinearity. -/
noncomputable def ReLU (x : ℝ) : ℝ := max 0 x

/-- The four named parameters of the network, mirroring the dictionary
`self.params` with keys `W1`, `b1`, `W2`, `b2`.  `b1` and `b2` are stored
by the source as `1×H` and `1×C` row matrices; a row matrix is modelled as
the vector of its entries.  Gradients have the same shape as the
parameters, so the same structure is reused for a gradient bundle. -/
structure Params (D H C : ℕ) where
  W1 : Fin D → Fin H → ℝ
  b1 : Fin H → ℝ
  W2 : Fin H → Fin C → ℝ
  b2 : Fin C → ℝ

variable {D H C N M B Nval : ℕ}

/-- The hidden-layer pre-activation `np.dot(X, W1) + b1` (the argument of
the ReLU on line 74 of the source). -/
noncomputable def hiddenPre (p : Params D H C) (X : Fin N → Fin D → ℝ) :
    Fin N → Fin H → ℝ :=
  fun i j => (∑ k, X i k * p.W1 k j) + p.b1 j

/-- The hidden layer `h1 = ReLU(np.dot(X, W1) + b1)`. -/
noncomputable def h1 (p : Params D H C) (X : Fin N → Fin D → ℝ) :
    Fin N → Fin H → ℝ :=
  fun i j => ReLU (hiddenPre p X i j)

/-- The class scores `scores = np.dot(h1, W2) + b2`, the value returned by
`loss` when `y is None`. -/
noncomputable def scores (p : Params D H C) (X : Fin N → Fin D → ℝ) :
    Fin N → Fin C → ℝ :=
  fun i j => (∑ k, h1 p X i k * p.W2 k j) + p.b2 j

/-- Per-row maximum `np.max(scores, axis=1)`, used for numerical stability. -/
noncomputable def rowMax [NeZero C] (s : Fin C → ℝ) : ℝ :=
  Finset.univ.sup' ⟨⟨0, Nat.pos_of_ne_zero (NeZero.ne C)⟩, Finset.mem_univ _⟩ s

/-- Source line 85: `exp_scores = np.exp(scores - scores_max)`. -/
noncomputable def expScores [NeZero C] (p : Params D H C)
    (X : Fin N → Fin D → ℝ) : Fin N → Fin C → ℝ :=
  fun i j => Real.exp (scores p X i j - rowMax (scores p X i))

/-- Source line 86: `probs = exp_scores / np.sum(exp_scores, axis=1)`, the
shifted-softmax probabilities actually computed by the source. -/
noncomputable def probs [NeZero C] (p : Params D H C)
    (X : Fin N → Fin D → ℝ) : Fin N → Fin C → ℝ :=
  fun i j => expScores p X i j / ∑ k, expScores p X i k

/-- Source line 88: `correct_logprobs = -np.log(probs[range(N), y])`. -/
noncomputable def correctLogprobs [NeZero C] (p : Params D H C)
    (X : Fin N → Fin D → ℝ) (y : Fin N → Fin C) : Fin N → ℝ :=
  fun i => -Real.log (probs p X i (y i))

/-- Source line 89: `data_loss = np.sum(correct_logprobs) / N`. -/
noncomputable def dataLoss [NeZero C] (p : Params D H C)
    (X : Fin N → Fin D → ℝ) (y : Fin N → Fin C) : ℝ :=
  (∑ i, correctLogprobs p X y i) / N

/-- Source line 90: `reg_loss = 0.5*reg*np.sum(W1*W1) + 0.5*reg*np.sum(W2*W2)`. -/
noncomputable def regLoss (p : Params D H C) (reg : ℝ) : ℝ :=
  0.5 * reg * (∑ i, ∑ j, p.W1 i j * p.W1 i j) +
    0.5 * reg * (∑ i, ∑ j, p.W2 i j * p.W2 i j)

/-- Source line 91: `loss = data_loss + reg_loss`, the scalar returned first. -/
noncomputable def lossVal [NeZero C] (p : Params D H C)
    (X : Fin N → Fin D → ℝ) (y : Fin N → Fin C) (reg : ℝ) : ℝ :=
  dataLoss p X y + regLoss p reg

/-- Source lines 96-98: `dscores = probs; dscores[range(N), y] -= 1;
dscores /= N`, the in-place-updated contents of the probability array. -/
noncomputable def dscores [NeZero C] (p : Params D H C)
    (X : Fin N → Fin D → ℝ) (y : Fin N → Fin C) : Fin N → Fin C → ℝ :=
  fun i j => (probs p X i j - if j = y i then 1 else 0) / N

/-- Source line 103: `dh1 = np.dot(dscores, W2.T)`. -/
noncomputable def dh1 [NeZero C] (p : Params D H C)
    (X : Fin N → Fin D → ℝ) (y : Fin N → Fin C) : Fin N → Fin H → ℝ :=
  fun i h => ∑ c, dscores p X y i c * p.W2 h c

/-- Source line 105: `dh1[h1 <= 0] = 0`, the gradient gated through the ReLU.
The source gates on the ReLU output `h1`, not on the pre-activation. -/
noncomputable def dh1Gated [NeZero C] (p : Params D H C)
    (X : Fin N → Fin D → ℝ) (y : Fin N → Fin C) : Fin N → Fin H → ℝ :=
  fun i h => if h1 p X i h ≤ 0 then 0 else dh1 p X y i h

/-- The gradient bundle `grads` returned by `loss` (lines 100–115), after
the regularization contributions `dW2 += reg*W2`, `dW1 += reg*W1`. -/
noncomputable def grads [NeZero C] (p : Params D H C)
    (X : Fin N → Fin D → ℝ) (y : Fin N → Fin C) (reg : ℝ) : Params D H C where
  W1 := fun d h => (∑ i, X i d * dh1Gated p X y i h) + reg * p.W1 d h
  b1 := fun h => ∑ i, dh1Gated p X y i h
  W2 := fun h c => (∑ i, h1 p X i h * dscores p X y i c) + reg * p.W2 h c
  b2 := fun c => ∑ i, dscores p X y i c

/-- The pair `(loss, grads)` returned by `loss(X, y, reg)` when `y` is
present. -/
noncomputable def lossPair [NeZero C] (p : Params D H C)
    (X : Fin N → Fin D → ℝ) (y : Fin N → Fin C) (reg : ℝ) :
    ℝ × Params D H C :=
  (lossVal p X y reg, grads p X y reg)

/-- Softmax written as the specification states it, with no per-row
maximum subtracted: `softmaxSpec s c = exp (s c) / Σ_j exp (s j)`.
This is the spec-side definition that the code's shifted softmax is
compared against. -/
noncomputable def softmaxSpec (s : Fin C → ℝ) (c : Fin C) : ℝ :=
  Real.exp (s c) / ∑ j, Real.exp (s j)

/-- One comparison step of `np.argmax`'s left-to-right scan: the running
best index is replaced only when a strictly larger value is found, so the
first occurrence of the maximum is kept. -/
noncomputable def argmaxStep (s : Fin C → ℝ) (best j : Fin C) : Fin C :=
  if s best < s j then j else best

/-- Source line 214: `np.argmax` over one score row, a left-to-right scan over all
class indices starting from index 0. -/
noncomputable def argmaxRow [NeZero C] (s : Fin C → ℝ) : Fin C :=
  (List.finRange C).foldl (argmaxStep s)
    ⟨0, Nat.pos_of_ne_zero (NeZero.ne C)⟩

/-- Source method `predict` (lines 211–216): forward pass followed by a per-row argmax. -/
noncomputable def predict [NeZero C] (p : Params D H C)
    (X : Fin M → Fin D → ℝ) : Fin M → Fin C :=
  fun i => argmaxRow (scores p X i)

/-- Comparison mean `(pred == actual).mean()`: the fraction of positions where two label
vectors agree (used for the per-epoch accuracy checks, lines 179–180). -/
noncomputable def accuracy (pred actual : Fin M → Fin C) : ℝ :=
  ((Finset.univ.filter fun b => pred b = actual b).card : ℝ) / M

/-- Source line 141: `iterations_per_epoch = max(num_train / batch_size, 1)`;
`/` is Python 2 integer division. -/
def itersPerEpoch (N B : ℕ) : ℕ := max (N / B) 1

/-- The data and hyperparameters of one `train` call that do not evolve
across iterations.  `sample` is the oracle for the per-iteration
`np.random.choice(num_train, batch_size, replace=True)` call: it returns,
for each iteration counter, the `batch_size` sampled indices, each in
`[0, N)` by its type (sampling with replacement allows repeats, which a
plain function permits). -/
structure TrainConfig (D H C N Nval B : ℕ) where
  X : Fin N → Fin D → ℝ
  y : Fin N → Fin C
  Xval : Fin Nval → Fin D → ℝ
  yval : Fin Nval → Fin C
  lrDecay : ℝ
  reg : ℝ
  muIncrease : ℝ
  verbose : Bool
  sample : ℕ → Fin B → Fin N

/-- The state evolving across training iterations: the parameters
(`self.params`, mutated in place by the source), the four momentum
velocities, the current learning rate and momentum coefficient (local
variables `learning_rate` and `mu`), and the three histories. -/
structure TrainState (D H C : ℕ) where
  params : Params D H C
  vW1 : Fin D → Fin H → ℝ
  vb1 : Fin H → ℝ
  vW2 : Fin H → Fin C → ℝ
  vb2 : Fin C → ℝ
  lr : ℝ
  mu : ℝ
  lossHistory : List ℝ
  trainAccHistory : List ℝ
  valAccHistory : List ℝ

/-- Source line 155: `X_batch = X[sample_index, :]` for iteration `it`. -/
noncomputable def batchX (cfg : TrainConfig D H C N Nval B) (it : ℕ) :
    Fin B → Fin D → ℝ :=
  fun b d => cfg.X (cfg.sample it b) d

/-- Source line 156: `y_batch = y[sample_index]` for iteration `it`. -/
def batchY (cfg : TrainConfig D H C N Nval B) (it : ℕ) : Fin B → Fin C :=
  fun b => cfg.y (cfg.sample it b)

/-- One iteration of the `train` loop body (lines 150–188): sample a
minibatch, compute loss and gradients, append the loss, do the four
momentum updates, and — only when `verbose` holds and the iteration
counter is an exact multiple of `iterations_per_epoch` — record the
minibatch training accuracy and full-validation-set accuracy and rescale
the learning rate and momentum coefficient. -/
noncomputable def trainStep [NeZero C] (cfg : TrainConfig D H C N Nval B)
    (ipe : ℕ) (it : ℕ) (s : TrainState D H C) : TrainState D H C :=
  let g := (lossPair s.params (batchX cfg it) (batchY cfg it) cfg.reg).2
  let l := (lossPair s.params (batchX cfg it) (batchY cfg it) cfg.reg).1
  let vW2 : Fin H → Fin C → ℝ := fun i j => s.mu * s.vW2 i j - s.lr * g.W2 i j
  let vb2 : Fin C → ℝ := fun j => s.mu * s.vb2 j - s.lr * g.b2 j
  let vW1 : Fin D → Fin H → ℝ := fun i j => s.mu * s.vW1 i j - s.lr * g.W1 i j
  let vb1 : Fin H → ℝ := fun j => s.mu * s.vb1 j - s.lr * g.b1 j
  let p' : Params D H C :=
    ⟨fun i j => s.params.W1 i j + vW1 i j, fun j => s.params.b1 j + vb1 j,
     fun i j => s.params.W2 i j + vW2 i j, fun j => s.params.b2 j + vb2 j⟩
  let s1 : TrainState D H C :=
    { params := p', vW1 := vW1, vb1 := vb1, vW2 := vW2, vb2 := vb2,
      lr := s.lr, mu := s.mu,
      lossHistory := s.lossHistory ++ [l],
      trainAccHistory := s.trainAccHistory,
      valAccHistory := s.valAccHistory }
  if cfg.verbose = true ∧ it % ipe = 0 then
    { s1 with
      trainAccHistory :=
        s1.trainAccHistory ++ [accuracy (predict p' (batchX cfg it)) (batchY cfg it)],
      valAccHistory :=
        s1.valAccHistory ++ [accuracy (predict p' cfg.Xval) cfg.yval],
      lr := s1.lr * cfg.lrDecay,
      mu := s1.mu * cfg.muIncrease }
  else s1

/-- The loop `xrange(1, T+1)` run to depth `t`: `trainAux cfg ipe t s` is the state
after the iterations numbered `1, …, t`, executed in that order. -/
noncomputable def trainAux [NeZero C] (cfg : TrainConfig D H C N Nval B)
    (ipe : ℕ) : ℕ → TrainState D H C → TrainState D H C
  | 0, s => s
  | t + 1, s => trainStep cfg ipe (t + 1) (trainAux cfg ipe t s)

/-- The loop-entry state of a `train` call (lines 144–148): current
parameters, zero velocities (`0.0` scalars, broadcast to zero arrays by
the first update), the initial learning rate and momentum coefficient,
and empty histories. -/
def initState (p : Params D H C) (lr mu : ℝ) : TrainState D H C :=
  ⟨p, fun _ _ => 0, fun _ => 0, fun _ _ => 0, fun _ => 0, lr, mu, [], [], []⟩

/-- Source method `train` (lines 119–194): run `num_epochs * iterations_per_epoch`
iterations from the loop-entry state.  The final state carries both the
mutated `self.params` and the histories the source returns. -/
noncomputable def train [NeZero C] (cfg : TrainConfig D H C N Nval B)
    (p : Params D H C) (lr mu : ℝ) (numEpochs : ℕ) : TrainState D H C :=
  trainAux cfg (itersPerEpoch N B) (numEpochs * itersPerEpoch N B)
    (initState p lr mu)

/-- The dictionary returned by `train` (lines 190–194): the three
histories. -/
noncomputable def trainRecord [NeZero C] (cfg : TrainConfig D H C N Nval B)
    (p : Params D H C) (lr mu : ℝ) (numEpochs : ℕ) :
    List ℝ × List ℝ × List ℝ :=
  ((train cfg p lr mu numEpochs).lossHistory,
   (train cfg p lr mu numEpochs).trainAccHistory,
   (train cfg p lr mu numEpochs).valAccHistory)

/-- Source constructor (lines 38–42): `W1 = std * randn(D, H)`,
`W2 = std * randn(H, C)`, zero biases.  The library's `randn` draws are
modelled as oracle tables `r1`, `r2`. -/
def initParams (D H C : ℕ) (std : ℝ) (r1 : Fin D → Fin H → ℝ)
    (r2 : Fin H → Fin C → ℝ) : Params D H C :=
  ⟨fun i j => std * r1 i j, fun _ => 0, fun i j => std * r2 i j, fun _ => 0⟩

/-- The dimension triple of a parameter bundle, the shape data the
source's arrays carry at run time. -/
def Params.shape {D H C : ℕ} (_ : Params D H C) : ℕ × ℕ × ℕ := (D, H, C)

/-- State-passing embedding of a `loss(X, y, reg)` call with labels: the
store of the four parameter arrays is threaded through the call.  The
method reads `W1, b1, W2, b2` (lines 68–69) and never writes to a
parameter array — its only in-place write (lines 97–98) hits the freshly
allocated `probs` array — so the call returns the store it received. -/
noncomputable def lossCall [NeZero C] (p : Params D H C)
    (X : Fin N → Fin D → ℝ) (y : Fin N → Fin C) (reg : ℝ) :
    (ℝ × Params D H C) × Params D H C :=
  let W1 := p.W1
  let b1 := p.b1
  let W2 := p.W2
  let b2 := p.b2
  (lossPair ⟨W1, b1, W2, b2⟩ X y reg, ⟨W1, b1, W2, b2⟩)

/-- State-passing embedding of a `loss(X)` call without labels (the
`y is None` branch, lines 77–78): it returns the scores and the untouched
parameter store. -/
noncomputable def scoresCall (p : Params D H C) (X : Fin N → Fin D → ℝ) :
    (Fin N → Fin C → ℝ) × Params D H C :=
  let W1 := p.W1
  let b1 := p.b1
  let W2 := p.W2
  let b2 := p.b2
  (scores ⟨W1, b1, W2, b2⟩ X, ⟨W1, b1, W2, b2⟩)

/-- A concrete zero parameter bundle for a network with two output
classes. -/
noncomputable def exP2 : Params 1 1 2 :=
  ⟨fun _ _ => 0, fun _ => 0, fun _ _ => 0, fun _ => 0⟩

/-- A concrete label vector into two classes. -/
def exY2 : Fin 1 → Fin 2 := fun _ => 0

/-- The gradient bundle computed by iteration `it` of the training loop:
`loss(X_batch, y_batch, reg)` at the pre-update parameters. -/
noncomputable def stepGrads [NeZero C] (cfg : TrainConfig D H C N Nval B)
    (it : ℕ) (s : TrainState D H C) : Params D H C :=
  (lossPair s.params (batchX cfg it) (batchY cfg it) cfg.reg).2

/-- A concrete 1-1-1 parameter bundle with all entries zero. -/
noncomputable def exP : Params 1 1 1 :=
  ⟨fun _ _ => 0, fun _ => 0, fun _ _ => 0, fun _ => 0⟩

/-- A concrete one-row, one-feature input batch. -/
noncomputable def exX : Fin 1 → Fin 1 → ℝ := fun _ _ => 0

/-- A concrete label vector for `exX`. -/
def exY : Fin 1 → Fin 1 := fun _ => 0

/-- A concrete training configuration with verbosity off. -/
noncomputable def exCfg : TrainConfig 1 1 1 1 1 1 :=
  ⟨exX, exY, exX, exY, 1, 0, 1, false, fun _ _ => 0⟩

/-- A concrete training configuration with verbosity on. -/
noncomputable def exCfgV : TrainConfig 1 1 1 1 1 1 :=
  ⟨exX, exY, exX, exY, 1, 0, 1, true, fun _ _ => 0⟩

/-- A concrete training state with learning rate 1 and momentum 0. -/
noncomputable def exState : TrainState 1 1 1 := initState exP 1 0

/-- The shift by the row maximum cancels in exact arithmetic: the
probabilities computed by the source are exactly `softmaxSpec` of the
score row. -/
theorem probs_eq_softmaxSpec [NeZero C] (p : Params D H C)
    (X : Fin N → Fin D → ℝ) (i : Fin N) (j : Fin C) :
    probs p X i j = softmaxSpec (scores p X i) j := by
  unfold probs expScores softmaxSpec
  have hm : ∀ k : Fin C,
      Real.exp (scores p X i k - rowMax (scores p X i)) =
        Real.exp (scores p X i k) / Real.exp (rowMax (scores p X i)) := by
    intro k; exact Real.exp_sub _ _
  rw [hm j]
  have hsum : (∑ k, Real.exp (scores p X i k - rowMax (scores p X i))) =
      (∑ k, Real.exp (scores p X i k)) / Real.exp (rowMax (scores p X i)) := by
    rw [Finset.sum_div]
    exact Finset.sum_congr rfl fun k _ => hm k
  rw [hsum, div_div_eq_mul_div, div_mul_cancel₀ _ (Real.exp_ne_zero _)]

/-- Invariant of the argmax scan: folding `argmaxStep` over a strictly
increasing list of indices that all dominate the seed returns an index
whose score weakly dominates the seed's and every listed index's score,
strictly exceeds the seed's score unless it is the seed itself, and is
the lowest listed-or-seed index attaining its score. -/
theorem argmaxStep_foldl_spec (s : Fin C → ℝ) (l : List (Fin C)) :
    ∀ b : Fin C, l.Pairwise (· < ·) → (∀ j ∈ l, b ≤ j) →
      s b ≤ s (l.foldl (argmaxStep s) b) ∧
      (l.foldl (argmaxStep s) b = b ∨ s b < s (l.foldl (argmaxStep s) b)) ∧
      (∀ j ∈ l, s j ≤ s (l.foldl (argmaxStep s) b)) ∧
      (∀ j ∈ l, s j = s (l.foldl (argmaxStep s) b) →
        l.foldl (argmaxStep s) b ≤ j) := by
  induction l with
  | nil => intro b _ _; exact ⟨le_refl _, Or.inl rfl, by simp, by simp⟩
  | cons j t ih =>
    intro b hpw hble
    have hpwt : t.Pairwise (· < ·) := hpw.tail
    have hjt : ∀ k ∈ t, j < k := fun k hk => (List.pairwise_cons.mp hpw).1 k hk
    have hbj : b ≤ j := hble j (List.mem_cons_self j t)
    have hfold : (j :: t).foldl (argmaxStep s) b =
        t.foldl (argmaxStep s) (argmaxStep s b j) := rfl
    have hb'le : ∀ k ∈ t, argmaxStep s b j ≤ k := by
      intro k hk
      unfold argmaxStep
      by_cases h : s b < s j
      · simp only [h, if_true]; exact le_of_lt (hjt k hk)
      · simp only [h, if_false]; exact hble k (List.mem_cons_of_mem j hk)
    obtain ⟨ih1, ih2, ih3, ih4⟩ := ih (argmaxStep s b j) hpwt hb'le
    have hbb' : s b ≤ s (argmaxStep s b j) := by
      unfold argmaxStep
      by_cases h : s b < s j
      · simp only [h, if_true]; exact le_of_lt h
      · simp only [h, if_false]; exact le_refl _
    have hjb' : s j ≤ s (argmaxStep s b j) := by
      unfold argmaxStep
      by_cases h : s b < s j
      · simp only [h, if_true]; exact le_refl _
      · simp only [h, if_false]; exact le_of_not_lt h
    rw [hfold]
    refine ⟨le_trans hbb' ih1, ?_, ?_, ?_⟩
    · rcases ih2 with h2 | h2
      · rw [h2]
        unfold argmaxStep
        by_cases h : s b < s j
        · simp only [h, if_true]
          exact Or.inr trivial
        · simp only [h, if_false]
          exact Or.inl trivial
      · exact Or.inr (lt_of_le_of_lt hbb' h2)
    · intro k hk
      rcases List.mem_cons.mp hk with hkj | hkt
      · rw [hkj]; exact le_trans hjb' ih1
      · exact ih3 k hkt
    · intro k hk hkeq
      rcases List.mem_cons.mp hk with hkj | hkt
      · subst hkj
        rcases ih2 with h2 | h2
        · rw [h2]
          unfold argmaxStep
          by_cases h : s b < s k
          · simp only [h, if_true]; exact le_refl _
          · simp only [h, if_false]; exact hbj
        · exfalso
          have : s k ≤ s (argmaxStep s b k) := hjb'
          rw [hkeq] at this
          exact absurd (lt_of_le_of_lt this h2) (lt_irrefl _)
      · exact ih4 k hkt hkeq

/-- The argmax of a row attains the row maximum, and among the indices
attaining that maximum it is the least one. -/
theorem argmaxRow_spec [NeZero C] (s : Fin C → ℝ) :
    (∀ j, s j ≤ s (argmaxRow s)) ∧
      (∀ j, s j = s (argmaxRow s) → argmaxRow s ≤ j) := by
  have hble : ∀ j ∈ List.finRange C,
      (⟨0, Nat.pos_of_ne_zero (NeZero.ne C)⟩ : Fin C) ≤ j :=
    fun j _ => Fin.mk_le_of_le_val (Nat.zero_le _)
  obtain ⟨_, _, h3, h4⟩ := argmaxStep_foldl_spec s (List.finRange C)
    ⟨0, Nat.pos_of_ne_zero (NeZero.ne C)⟩ (List.pairwise_lt_finRange C) hble
  exact ⟨fun j => h3 j (List.mem_finRange j), fun j => h4 j (List.mem_finRange j)⟩

/-- The ReLU output is nonpositive exactly when its argument is: gating a
gradient on `h1 <= 0` (the source, line 105) is the same as gating on the
pre-activation being `≤ 0` (the specification's wording). -/
theorem ReLU_nonpos_iff (x : ℝ) : ReLU x ≤ 0 ↔ x ≤ 0 := by
  unfold ReLU
  rw [max_le_iff]
  exact ⟨fun h => h.2, fun h => ⟨le_refl 0, h⟩⟩

/-- C1: for a batch of `N ≥ 1` rows, labels in `[0, C)` and `reg ≥ 0`, the
first component of `loss(X, y, reg)` equals the mean over the batch of
`-log(softmax(scores_i)[y_i])` plus `0.5·reg·Σ W1² + 0.5·reg·Σ W2²`,
where `scores = ReLU(X·W1 + b1)·W2 + b2`; the softmax the source computes
after subtracting the per-row maximum coincides, in exact arithmetic,
with the unshifted softmax. -/
theorem claim_C1 [NeZero N] [NeZero C] (p : Params D H C)
    (X : Fin N → Fin D → ℝ) (y : Fin N → Fin C) (reg : ℝ) (hreg : 0 ≤ reg) :
    (∀ i j, scores p X i j =
        (∑ k, ReLU ((∑ d, X i d * p.W1 d k) + p.b1 k) * p.W2 k j) + p.b2 j) ∧
    (∀ i j, probs p X i j = softmaxSpec (scores p X i) j) ∧
    (lossPair p X y reg).1 =
      (1 / (N : ℝ)) * (∑ i, -Real.log (softmaxSpec (scores p X i) (y i))) +
        (0.5 * reg * (∑ d, ∑ k, p.W1 d k * p.W1 d k) +
          0.5 * reg * (∑ k, ∑ c, p.W2 k c * p.W2 k c)) := by
  refine ⟨fun i j => rfl, probs_eq_softmaxSpec p X, ?_⟩
  have hd : dataLoss p X y =
      (1 / (N : ℝ)) * ∑ i, -Real.log (softmaxSpec (scores p X i) (y i)) := by
    unfold dataLoss
    rw [div_eq_mul_inv, mul_comm, ← one_div]
    congr 1
    refine Finset.sum_congr rfl fun i _ => ?_
    simp only [correctLogprobs, probs_eq_softmaxSpec]
  show lossVal p X y reg = _
  unfold lossVal regLoss
  rw [hd]

/-- C1 witness: the theorem instantiated at a concrete 1-1-1 network,
one-row batch and `reg = 1`. -/
theorem claim_C1_witness :
    (0:ℝ) ≤ 1 ∧
      (lossPair exP exX exY 1).1 =
        (1 / ((1:ℕ) : ℝ)) *
            (∑ i, -Real.log (softmaxSpec (scores exP exX i) (exY i))) +
          (0.5 * 1 * (∑ d, ∑ k, exP.W1 d k * exP.W1 d k) +
            0.5 * 1 * (∑ k, ∑ c, exP.W2 k c * exP.W2 k c)) :=
  ⟨zero_le_one, (claim_C1 exP exX exY 1 zero_le_one).2.2⟩

/-- C2: the gradient bundle of `loss(X, y, reg)` satisfies the backward
pass the specification states: `dscores` is `(softmax − one-hot)/N`, the
`W2`/`b2` gradients are `h1ᵀ·dscores + reg·W2` and the column sums of
`dscores`, the gradient reaching the hidden layer is zeroed exactly where
the hidden pre-activation is `≤ 0`, and the `W1`/`b1` gradients are
`Xᵀ·(gated gradient) + reg·W1` and its column sums; shapes agree with the
parameters by construction (`grads` is a `Params` bundle). -/
theorem claim_C2 [NeZero N] [NeZero C] (p : Params D H C)
    (X : Fin N → Fin D → ℝ) (y : Fin N → Fin C) (reg : ℝ) :
    (∀ i j, dscores p X y i j =
        (softmaxSpec (scores p X i) j - if j = y i then 1 else 0) / N) ∧
    (∀ k c, (grads p X y reg).W2 k c =
        (∑ i, h1 p X i k * dscores p X y i c) + reg * p.W2 k c) ∧
    (∀ c, (grads p X y reg).b2 c = ∑ i, dscores p X y i c) ∧
    (∀ i k, dh1Gated p X y i k =
        if hiddenPre p X i k ≤ 0 then 0 else dh1 p X y i k) ∧
    (∀ d k, (grads p X y reg).W1 d k =
        (∑ i, X i d *
          (if hiddenPre p X i k ≤ 0 then 0 else dh1 p X y i k)) +
          reg * p.W1 d k) ∧
    (∀ k, (grads p X y reg).b1 k =
        ∑ i, if hiddenPre p X i k ≤ 0 then 0 else dh1 p X y i k) := by
  have hgate : ∀ i k, dh1Gated p X y i k =
      if hiddenPre p X i k ≤ 0 then 0 else dh1 p X y i k := by
    intro i k
    simp only [dh1Gated, h1, ReLU_nonpos_iff]
  refine ⟨fun i j => ?_, fun k c => rfl, fun c => rfl, hgate,
    fun d k => ?_, fun k => ?_⟩
  · simp only [dscores, probs_eq_softmaxSpec]
  · show (∑ i, X i d * dh1Gated p X y i k) + reg * p.W1 d k = _
    refine congrArg (· + reg * p.W1 d k) ?_
    exact Finset.sum_congr rfl fun i _ => by rw [hgate]
  · show (∑ i, dh1Gated p X y i k) = _
    exact Finset.sum_congr rfl fun i _ => by rw [hgate]

/-- C2 witness: the theorem instantiated at a concrete 1-1-1 network and
the first (only) batch row and class. -/
theorem claim_C2_witness :
    dscores exP exX exY 0 0 =
      (softmaxSpec (scores exP exX 0) 0 - if (0 : Fin 1) = exY 0 then 1 else 0) /
        ((1:ℕ) : ℝ) :=
  (claim_C2 exP exX exY 1).1 0 0

/-- C6: `predict` computes `scores = ReLU(X·W1 + b1)·W2 + b2` and returns,
for every row, the index of that row's maximum score; ties go to the
lowest index; every returned label is strictly below the class count `C`
(its value, as a `Fin C`, is bounded); and the call is a pure function of
the parameters — it is read-only by construction. -/
theorem claim_C6 [NeZero C] (p : Params D H C) (X : Fin M → Fin D → ℝ) :
    (∀ i j, scores p X i j =
        (∑ k, ReLU ((∑ d, X i d * p.W1 d k) + p.b1 k) * p.W2 k j) + p.b2 j) ∧
    (∀ i, predict p X i = argmaxRow (scores p X i)) ∧
    (∀ i j, scores p X i j ≤ scores p X i (predict p X i)) ∧
    (∀ i j, scores p X i j = scores p X i (predict p X i) → predict p X i ≤ j) ∧
    (∀ i, (predict p X i).val < C) :=
  ⟨fun _ _ => rfl, fun _ => rfl,
   fun i j => (argmaxRow_spec (scores p X i)).1 j,
   fun i j hj => (argmaxRow_spec (scores p X i)).2 j hj,
   fun i => (predict p X i).isLt⟩

/-- C6 witness: the theorem instantiated at a concrete 1-1-1 network and
its only row and class. -/
theorem claim_C6_witness :
    scores exP exX 0 0 ≤ scores exP exX 0 (predict exP exX 0) ∧
      (predict exP exX 0).val < 1 :=
  ⟨(claim_C6 exP exX).2.2.1 0 0, (claim_C6 exP exX).2.2.2.2 0⟩

/-- C7: construction stores exactly the four parameters with the stated
shapes and contents — `W1 = std·randn(D,H)`, `W2 = std·randn(H,C)` with
the `randn` draws supplied by oracle tables, and zero bias vectors of
lengths `H` and `C` — and a training update never changes a parameter's
shape (the updated bundle carries the same dimension triple). -/
theorem claim_C7 [NeZero C] (std : ℝ) (r1 : Fin D → Fin H → ℝ)
    (r2 : Fin H → Fin C → ℝ) (cfg : TrainConfig D H C N Nval B)
    (ipe it : ℕ) (s : TrainState D H C) :
    (∀ d k, (initParams D H C std r1 r2).W1 d k = std * r1 d k) ∧
    (∀ k, (initParams D H C std r1 r2).b1 k = 0) ∧
    (∀ k c, (initParams D H C std r1 r2).W2 k c = std * r2 k c) ∧
    (∀ c, (initParams D H C std r1 r2).b2 c = 0) ∧
    (trainStep cfg ipe it s).params.shape = s.params.shape :=
  ⟨fun _ _ => rfl, fun _ => rfl, fun _ _ => rfl, fun _ => rfl, rfl⟩

/-- C7 witness: the theorem instantiated at a concrete 1-1-1 network. -/
theorem claim_C7_witness :
    (initParams 1 1 1 1 (fun _ _ => 1) (fun _ _ => 1)).b1 0 = 0 ∧
      (trainStep exCfg 1 1 exState).params.shape = exState.params.shape :=
  ⟨(claim_C7 1 (fun _ _ => 1) (fun _ _ => 1) exCfg 1 1 exState).2.1 0,
   (claim_C7 1 (fun _ _ => 1) (fun _ _ => 1) exCfg 1 1 exState).2.2.2.2⟩

/-- C8: training for zero epochs performs zero iterations — the returned
record holds three empty histories and the parameters are exactly those
from before the call. -/
theorem claim_C8 [NeZero C] (cfg : TrainConfig D H C N Nval B)
    (p : Params D H C) (lr mu : ℝ) :
    trainRecord cfg p lr mu 0 = ([], [], []) ∧
      (train cfg p lr mu 0).params = p := by
  have h : train cfg p lr mu 0 = initState p lr mu := by
    unfold train
    rw [Nat.zero_mul, trainAux]
  rw [trainRecord, h]
  exact ⟨rfl, rfl⟩

/-- C8 witness: the theorem instantiated at a concrete configuration. -/
theorem claim_C8_witness :
    trainRecord exCfg exP 1 0 0 = ([], [], []) ∧
      (train exCfg exP 1 0 0).params = exP :=
  claim_C8 exCfg exP 1 0

/-- C10: a `loss` call, with or without labels, leaves the parameter
store untouched: threading the four parameter arrays through the call
returns them unchanged, and the values computed agree with `lossPair`
(respectively `scores`).  The in-place write of the backward pass targets
the freshly allocated probability array, whose final contents are
`dscores`, not any parameter array. -/
theorem claim_C10 [NeZero C] (p : Params D H C) (X : Fin N → Fin D → ℝ)
    (y : Fin N → Fin C) (reg : ℝ) :
    (lossCall p X y reg).2 = p ∧
    (lossCall p X y reg).1 = lossPair p X y reg ∧
    (scoresCall p X).2 = p ∧
    (scoresCall p X).1 = scores p X :=
  ⟨rfl, rfl, rfl, rfl⟩

/-- C10 witness: the theorem instantiated at a concrete 1-1-1 network. -/
theorem claim_C10_witness :
    (lossCall exP exX exY 1).2 = exP ∧ (scoresCall exP exX).2 = exP :=
  ⟨(claim_C10 exP exX exY 1).1, (claim_C10 exP exX exY 1).2.2.1⟩

/-- Projections of one training iteration that do not depend on the
verbosity branch: the four momentum-velocity updates, the four in-place
parameter updates, and the loss append. -/
theorem trainStep_core [NeZero C] (cfg : TrainConfig D H C N Nval B)
    (ipe it : ℕ) (s : TrainState D H C) :
    (trainStep cfg ipe it s).vW1 =
      (fun i j => s.mu * s.vW1 i j - s.lr * (stepGrads cfg it s).W1 i j) ∧
    (trainStep cfg ipe it s).vb1 =
      (fun j => s.mu * s.vb1 j - s.lr * (stepGrads cfg it s).b1 j) ∧
    (trainStep cfg ipe it s).vW2 =
      (fun i j => s.mu * s.vW2 i j - s.lr * (stepGrads cfg it s).W2 i j) ∧
    (trainStep cfg ipe it s).vb2 =
      (fun j => s.mu * s.vb2 j - s.lr * (stepGrads cfg it s).b2 j) ∧
    (trainStep cfg ipe it s).params.W1 =
      (fun i j => s.params.W1 i j + (trainStep cfg ipe it s).vW1 i j) ∧
    (trainStep cfg ipe it s).params.b1 =
      (fun j => s.params.b1 j + (trainStep cfg ipe it s).vb1 j) ∧
    (trainStep cfg ipe it s).params.W2 =
      (fun i j => s.params.W2 i j + (trainStep cfg ipe it s).vW2 i j) ∧
    (trainStep cfg ipe it s).params.b2 =
      (fun j => s.params.b2 j + (trainStep cfg ipe it s).vb2 j) ∧
    (trainStep cfg ipe it s).lossHistory =
      s.lossHistory ++
        [(lossPair s.params (batchX cfg it) (batchY cfg it) cfg.reg).1] := by
  unfold trainStep stepGrads
  split
  · exact ⟨rfl, rfl, rfl, rfl, rfl, rfl, rfl, rfl, rfl⟩
  · exact ⟨rfl, rfl, rfl, rfl, rfl, rfl, rfl, rfl, rfl⟩

/-- When the verbosity condition fails, an iteration leaves the accuracy
histories, the learning rate and the momentum coefficient untouched. -/
theorem trainStep_quiet [NeZero C] (cfg : TrainConfig D H C N Nval B)
    (ipe it : ℕ) (s : TrainState D H C)
    (h : ¬(cfg.verbose = true ∧ it % ipe = 0)) :
    (trainStep cfg ipe it s).trainAccHistory = s.trainAccHistory ∧
    (trainStep cfg ipe it s).valAccHistory = s.valAccHistory ∧
    (trainStep cfg ipe it s).lr = s.lr ∧
    (trainStep cfg ipe it s).mu = s.mu := by
  unfold trainStep
  rw [if_neg h]
  exact ⟨rfl, rfl, rfl, rfl⟩

/-- With verbosity on, every iteration whose counter is an exact multiple
of iterations-per-epoch appends the minibatch training accuracy and the
full-validation-set accuracy (both computed at the freshly updated
parameters) and rescales the learning rate and momentum coefficient. -/
theorem trainStep_verboseOn [NeZero C] (cfg : TrainConfig D H C N Nval B)
    (ipe it : ℕ) (s : TrainState D H C)
    (hv : cfg.verbose = true) (hit : it % ipe = 0) :
    (trainStep cfg ipe it s).trainAccHistory =
      s.trainAccHistory ++
        [accuracy (predict (trainStep cfg ipe it s).params (batchX cfg it))
          (batchY cfg it)] ∧
    (trainStep cfg ipe it s).valAccHistory =
      s.valAccHistory ++
        [accuracy (predict (trainStep cfg ipe it s).params cfg.Xval)
          cfg.yval] ∧
    (trainStep cfg ipe it s).lr = s.lr * cfg.lrDecay ∧
    (trainStep cfg ipe it s).mu = s.mu * cfg.muIncrease := by
  unfold trainStep
  rw [if_pos (And.intro hv hit)]
  exact ⟨rfl, rfl, rfl, rfl⟩

/-- Each iteration appends exactly one loss value, so running `T`
iterations grows the loss history by `T`. -/
theorem trainAux_lossHistory_length [NeZero C]
    (cfg : TrainConfig D H C N Nval B) (ipe : ℕ) :
    ∀ T (s : TrainState D H C),
      (trainAux cfg ipe T s).lossHistory.length = s.lossHistory.length + T := by
  intro T
  induction T with
  | zero => intro s; rfl
  | succ t ih =>
    intro s
    show (trainStep cfg ipe (t + 1) (trainAux cfg ipe t s)).lossHistory.length = _
    rw [(trainStep_core cfg ipe (t + 1) (trainAux cfg ipe t s)).2.2.2.2.2.2.2.2]
    rw [List.length_append, ih s]
    simp [Nat.add_assoc]

/-- With verbosity off, no iteration touches the accuracy histories, the
learning rate, or the momentum coefficient. -/
theorem trainAux_quiet [NeZero C] (cfg : TrainConfig D H C N Nval B)
    (ipe : ℕ) (hv : cfg.verbose = false) :
    ∀ T (s : TrainState D H C),
      (trainAux cfg ipe T s).trainAccHistory = s.trainAccHistory ∧
      (trainAux cfg ipe T s).valAccHistory = s.valAccHistory ∧
      (trainAux cfg ipe T s).lr = s.lr ∧
      (trainAux cfg ipe T s).mu = s.mu := by
  intro T
  induction T with
  | zero => intro s; exact ⟨rfl, rfl, rfl, rfl⟩
  | succ t ih =>
    intro s
    have hnot : ¬(cfg.verbose = true ∧ (t + 1) % ipe = 0) := by
      intro hc
      rw [hv] at hc
      exact Bool.false_ne_true hc.1
    obtain ⟨q1, q2, q3, q4⟩ :=
      trainStep_quiet cfg ipe (t + 1) (trainAux cfg ipe t s) hnot
    obtain ⟨i1, i2, i3, i4⟩ := ih s
    have hstep : trainAux cfg ipe (t + 1) s =
        trainStep cfg ipe (t + 1) (trainAux cfg ipe t s) := rfl
    rw [hstep]
    exact ⟨by rw [q1, i1], by rw [q2, i2], by rw [q3, i3], by rw [q4, i4]⟩

/-- C3: `train` initializes all four momentum velocities to zero; every
iteration sets each velocity to
`mu · velocity − learning_rate · gradient` and then adds the velocity to
the corresponding parameter; and when the current momentum coefficient is
`0` (and the learning rate positive), the update degenerates to
`parameter − learning_rate · gradient` exactly. -/
theorem claim_C3 [NeZero C] (cfg : TrainConfig D H C N Nval B)
    (ipe it : ℕ) (s : TrainState D H C) (p : Params D H C) (lr mu : ℝ) :
    ((initState p lr mu).vW1 = (fun _ _ => 0) ∧
     (initState p lr mu).vb1 = (fun _ => 0) ∧
     (initState p lr mu).vW2 = (fun _ _ => 0) ∧
     (initState p lr mu).vb2 = (fun _ => 0)) ∧
    ((trainStep cfg ipe it s).vW1 =
        (fun i j => s.mu * s.vW1 i j - s.lr * (stepGrads cfg it s).W1 i j) ∧
     (trainStep cfg ipe it s).vb1 =
        (fun j => s.mu * s.vb1 j - s.lr * (stepGrads cfg it s).b1 j) ∧
     (trainStep cfg ipe it s).vW2 =
        (fun i j => s.mu * s.vW2 i j - s.lr * (stepGrads cfg it s).W2 i j) ∧
     (trainStep cfg ipe it s).vb2 =
        (fun j => s.mu * s.vb2 j - s.lr * (stepGrads cfg it s).b2 j)) ∧
    ((trainStep cfg ipe it s).params.W1 =
        (fun i j => s.params.W1 i j + (trainStep cfg ipe it s).vW1 i j) ∧
     (trainStep cfg ipe it s).params.b1 =
        (fun j => s.params.b1 j + (trainStep cfg ipe it s).vb1 j) ∧
     (trainStep cfg ipe it s).params.W2 =
        (fun i j => s.params.W2 i j + (trainStep cfg ipe it s).vW2 i j) ∧
     (trainStep cfg ipe it s).params.b2 =
        (fun j => s.params.b2 j + (trainStep cfg ipe it s).vb2 j)) ∧
    (0 < s.lr → s.mu = 0 →
      (trainStep cfg ipe it s).params.W1 =
        (fun i j => s.params.W1 i j - s.lr * (stepGrads cfg it s).W1 i j) ∧
      (trainStep cfg ipe it s).params.b1 =
        (fun j => s.params.b1 j - s.lr * (stepGrads cfg it s).b1 j) ∧
      (trainStep cfg ipe it s).params.W2 =
        (fun i j => s.params.W2 i j - s.lr * (stepGrads cfg it s).W2 i j) ∧
      (trainStep cfg ipe it s).params.b2 =
        (fun j => s.params.b2 j - s.lr * (stepGrads cfg it s).b2 j)) := by
  obtain ⟨hv1, hv2, hv3, hv4, hp1, hp2, hp3, hp4, _⟩ :=
    trainStep_core cfg ipe it s
  refine ⟨⟨rfl, rfl, rfl, rfl⟩, ⟨hv1, hv2, hv3, hv4⟩, ⟨hp1, hp2, hp3, hp4⟩,
    fun _ hmu => ⟨?_, ?_, ?_, ?_⟩⟩
  · funext i j
    rw [congrFun (congrFun hp1 i) j, congrFun (congrFun hv1 i) j, hmu]
    ring
  · funext j
    rw [congrFun hp2 j, congrFun hv2 j, hmu]
    ring
  · funext i j
    rw [congrFun (congrFun hp3 i) j, congrFun (congrFun hv3 i) j, hmu]
    ring
  · funext j
    rw [congrFun hp4 j, congrFun hv4 j, hmu]
    ring

/-- C3 witness: at a concrete state with learning rate `1` and momentum
`0`, one update subtracts `learning_rate · gradient` from `W1`. -/
theorem claim_C3_witness :
    (0:ℝ) < exState.lr ∧ exState.mu = 0 ∧
      (trainStep exCfg 1 1 exState).params.W1 =
        (fun i j => exState.params.W1 i j -
          exState.lr * (stepGrads exCfg 1 exState).W1 i j) :=
  ⟨one_pos, rfl, ((claim_C3 exCfg 1 1 exState exP 1 0).2.2.2 one_pos rfl).1⟩

/-- C4: each iteration forms its minibatch from the indices drawn by the
sampling oracle (each in `[0, N)` by type), computes the loss on that
minibatch, and appends exactly that one scalar to the loss history; the
whole call runs `num_epochs × max(N / batch_size, 1)` iterations
(`/` is integer division), so the returned loss history has exactly that
length. -/
theorem claim_C4 [NeZero C] (cfg : TrainConfig D H C N Nval B)
    (ipe it : ℕ) (s : TrainState D H C) (p : Params D H C) (lr mu : ℝ)
    (numEpochs : ℕ) :
    (∀ b d, batchX cfg it b d = cfg.X (cfg.sample it b) d) ∧
    (∀ b, batchY cfg it b = cfg.y (cfg.sample it b)) ∧
    (trainStep cfg ipe it s).lossHistory =
      s.lossHistory ++
        [(lossPair s.params (batchX cfg it) (batchY cfg it) cfg.reg).1] ∧
    (train cfg p lr mu numEpochs).lossHistory.length =
      numEpochs * max (N / B) 1 := by
  refine ⟨fun _ _ => rfl, fun _ => rfl,
    (trainStep_core cfg ipe it s).2.2.2.2.2.2.2.2, ?_⟩
  have h := trainAux_lossHistory_length cfg (itersPerEpoch N B)
    (numEpochs * itersPerEpoch N B) (initState p lr mu)
  simpa [train, initState, itersPerEpoch, Nat.mul_comm] using h

/-- C4 witness: a concrete two-epoch run on a one-row training set with
batch size one records exactly two losses. -/
theorem claim_C4_witness :
    (train exCfg exP 1 0 2).lossHistory.length = 2 * max (1 / 1) 1 :=
  (claim_C4 exCfg 1 1 exState exP 1 0 2).2.2.2

/-- C5: the end-of-epoch block runs exactly when verbosity is enabled and
the iteration counter is an exact multiple of iterations-per-epoch; it
then appends the training accuracy measured on the current minibatch and
the validation accuracy measured on the full validation set (both at the
just-updated parameters) and multiplies the learning rate by the decay
factor and the momentum coefficient by the momentum-increase factor;
with verbosity disabled the returned accuracy histories are empty and the
learning rate and momentum coefficient never change. -/
theorem claim_C5 [NeZero C] (cfg : TrainConfig D H C N Nval B)
    (ipe it : ℕ) (s : TrainState D H C) (p : Params D H C) (lr mu : ℝ)
    (numEpochs : ℕ) :
    (cfg.verbose = true → it % ipe = 0 →
      (trainStep cfg ipe it s).trainAccHistory =
        s.trainAccHistory ++
          [accuracy (predict (trainStep cfg ipe it s).params (batchX cfg it))
            (batchY cfg it)] ∧
      (trainStep cfg ipe it s).valAccHistory =
        s.valAccHistory ++
          [accuracy (predict (trainStep cfg ipe it s).params cfg.Xval)
            cfg.yval] ∧
      (trainStep cfg ipe it s).lr = s.lr * cfg.lrDecay ∧
      (trainStep cfg ipe it s).mu = s.mu * cfg.muIncrease) ∧
    (¬(cfg.verbose = true ∧ it % ipe = 0) →
      (trainStep cfg ipe it s).trainAccHistory = s.trainAccHistory ∧
      (trainStep cfg ipe it s).valAccHistory = s.valAccHistory ∧
      (trainStep cfg ipe it s).lr = s.lr ∧
      (trainStep cfg ipe it s).mu = s.mu) ∧
    (cfg.verbose = false →
      (train cfg p lr mu numEpochs).trainAccHistory = [] ∧
      (train cfg p lr mu numEpochs).valAccHistory = [] ∧
      (train cfg p lr mu numEpochs).lr = lr ∧
      (train cfg p lr mu numEpochs).mu = mu) := by
  refine ⟨fun hv hit => trainStep_verboseOn cfg ipe it s hv hit,
    fun h => trainStep_quiet cfg ipe it s h, fun hv => ?_⟩
  have h := trainAux_quiet cfg (itersPerEpoch N B) hv
    (numEpochs * itersPerEpoch N B) (initState p lr mu)
  exact h

/-- C5 witness: with verbosity on, an epoch boundary rescales the learning
rate; with verbosity off, a two-epoch run returns an empty
training-accuracy history. -/
theorem claim_C5_witness :
    ((trainStep exCfgV 1 1 exState).lr = exState.lr * exCfgV.lrDecay) ∧
      (train exCfg exP 1 0 2).trainAccHistory = [] :=
  ⟨((claim_C5 exCfgV 1 1 exState exP 1 0 2).1 rfl rfl).2.2.1,
   ((claim_C5 exCfg 1 1 exState exP 1 0 2).2.2 rfl).1⟩

/-- Every probability the source computes is strictly positive. -/
theorem probs_pos [NeZero C] (p : Params D H C) (X : Fin N → Fin D → ℝ)
    (i : Fin N) (c : Fin C) : 0 < probs p X i c := by
  unfold probs
  refine div_pos ?_ (Finset.sum_pos (fun k _ => ?_) ⟨c, Finset.mem_univ c⟩)
  · exact Real.exp_pos _
  · exact Real.exp_pos _

/-- With at least two classes, every probability the source computes is
strictly below one: the exponentials of the other classes make the
normalizing sum strictly larger than the numerator. -/
theorem probs_lt_one [NeZero C] (hC : 2 ≤ C) (p : Params D H C)
    (X : Fin N → Fin D → ℝ) (i : Fin N) (c : Fin C) :
    probs p X i c < 1 := by
  unfold probs
  have hsum : (0:ℝ) < ∑ k, expScores p X i k :=
    Finset.sum_pos (fun k _ => Real.exp_pos _) ⟨c, Finset.mem_univ c⟩
  rw [div_lt_one hsum]
  haveI : Nontrivial (Fin C) := Fin.nontrivial_iff_two_le.mpr hC
  obtain ⟨c', hc'⟩ := exists_ne c
  exact Finset.single_lt_sum hc' (Finset.mem_univ c) (Finset.mem_univ c')
    (Real.exp_pos _) (fun k _ _ => (Real.exp_pos _).le)

/-- C9 counterexample: with a single output class and all-zero weights,
the softmax probability of the only class is `1`, the cross-entropy term
vanishes, and `reg = 1 > 0` contributes nothing because the weights are
zero — the loss is `0`, not strictly positive, refuting the claim as
stated. -/
theorem claim_C9_counterexample :
    (0:ℝ) < 1 ∧ ¬ (0 < (lossPair exP exX exY 1).1) := by
  have hp : probs exP exX 0 0 = 1 := by
    unfold probs
    rw [Fin.sum_univ_one]
    exact div_self (Real.exp_ne_zero _)
  have hd : dataLoss exP exX exY = 0 := by
    unfold dataLoss correctLogprobs
    rw [Fin.sum_univ_one]
    show -Real.log (probs exP exX 0 (exY 0)) / ((1:ℕ) : ℝ) = 0
    rw [show exY 0 = 0 from rfl, hp, Real.log_one, neg_zero, zero_div]
  have hr : regLoss exP 1 = 0 := by
    unfold regLoss exP
    simp
  have h : (lossPair exP exX exY 1).1 = 0 := by
    show lossVal exP exX exY 1 = 0
    unfold lossVal
    rw [hd, hr, add_zero]
  rw [h]
  exact ⟨one_pos, lt_irrefl 0⟩

/-- C9 (amended): for a network with at least two output classes, the
loss on any batch with `N ≥ 1` and `reg > 0` is strictly positive, and
permuting the batch rows jointly with their labels leaves the loss
exactly unchanged in exact arithmetic. -/
theorem claim_C9 [NeZero N] [NeZero C] (p : Params D H C)
    (X : Fin N → Fin D → ℝ) (y : Fin N → Fin C) (reg : ℝ)
    (hreg : 0 < reg) (hC : 2 ≤ C) (σ : Equiv.Perm (Fin N)) :
    0 < (lossPair p X y reg).1 ∧
      (lossPair p (fun i => X (σ i)) (fun i => y (σ i)) reg).1 =
        (lossPair p X y reg).1 := by
  constructor
  · show 0 < lossVal p X y reg
    unfold lossVal
    have hterm : ∀ i : Fin N, 0 < correctLogprobs p X y i := by
      intro i
      unfold correctLogprobs
      have hlog : Real.log (probs p X i (y i)) < 0 :=
        Real.log_neg (probs_pos p X i (y i)) (probs_lt_one hC p X i (y i))
      exact neg_pos.mpr hlog
    have hdata : 0 < dataLoss p X y := by
      unfold dataLoss
      refine div_pos (Finset.sum_pos (fun i _ => hterm i) ?_) ?_
      · exact ⟨⟨0, Nat.pos_of_ne_zero (NeZero.ne N)⟩, Finset.mem_univ _⟩
      · exact_mod_cast Nat.pos_of_ne_zero (NeZero.ne N)
    have hregl : 0 ≤ regLoss p reg := by
      unfold regLoss
      have h1 : (0:ℝ) ≤ ∑ i, ∑ j, p.W1 i j * p.W1 i j :=
        Finset.sum_nonneg fun i _ =>
          Finset.sum_nonneg fun j _ => mul_self_nonneg _
      have h2 : (0:ℝ) ≤ ∑ i, ∑ j, p.W2 i j * p.W2 i j :=
        Finset.sum_nonneg fun i _ =>
          Finset.sum_nonneg fun j _ => mul_self_nonneg _
      have hc : (0:ℝ) ≤ 0.5 * reg := by
        have : (0:ℝ) ≤ 0.5 := by norm_num
        exact mul_nonneg this hreg.le
      exact add_nonneg (mul_nonneg hc h1) (mul_nonneg hc h2)
    exact add_pos_of_pos_of_nonneg hdata hregl
  · show lossVal p (fun i => X (σ i)) (fun i => y (σ i)) reg =
      lossVal p X y reg
    unfold lossVal
    have hrow : ∀ i, correctLogprobs p (fun i => X (σ i))
        (fun i => y (σ i)) i = correctLogprobs p X y (σ i) :=
      fun i => rfl
    have hperm : dataLoss p (fun i => X (σ i)) (fun i => y (σ i)) =
        dataLoss p X y := by
      unfold dataLoss
      congr 1
      calc (∑ i, correctLogprobs p (fun i => X (σ i)) (fun i => y (σ i)) i)
          = ∑ i, correctLogprobs p X y (σ i) :=
            Finset.sum_congr rfl fun i _ => hrow i
        _ = ∑ i, correctLogprobs p X y i := Equiv.sum_comp σ _
    rw [hperm]

/-- C9 witness: the amended theorem applied to a concrete two-class
network, the identity permutation and `reg = 1`. -/
theorem claim_C9_witness :
    (0:ℝ) < 1 ∧ 2 ≤ 2 ∧ 0 < (lossPair exP2 exX exY2 1).1 :=
  ⟨one_pos, le_refl 2,
   (claim_C9 exP2 exX exY2 1 one_pos (le_refl 2) (Equiv.refl (Fin 1))).1⟩

end TwoLayerNN
